import Mathlib

/-!
Verification of the Agri-Voice-RAG query-resolution pipeline.

The Python sources are shallowly embedded as Lean definitions:

* `agricultural_rag_pipeline.py` — intent classification, similarity-gated
  retrieval, answer synthesis and the orchestrating query function.
* `vocabulary_corrector.py` — the vocabulary-correction pre-processor
  (regex word-boundary substitution, modelled character by character).
* `rag/.system/optimization_engine.py` — the query cache with fuzzy
  key matching.

External services (the chat model, the embedding service, the vector
index) are modelled as oracle parameters; fallible calls are oracles
returning `Except Unit` so that an uncaught exception of the Python code
corresponds to an `Except.error` value propagating out of a definition.
Similarity scores are modelled as rationals; the float threshold `0.85`
becomes `mkRat 85 100`.
-/

set_option maxRecDepth 40000

namespace AgriRag

/-! ## Character and string helpers (Python semantics, list-based) -/

/-- Python `in` for strings: `startsWithL pat s` is true when `pat` is a
prefix of `s` (exact characters). -/
def startsWithL : List Char → List Char → Bool
  | [], _ => true
  | _ :: _, [] => false
  | a :: as, b :: bs => a == b && startsWithL as bs

/-- Python `pat in s` (substring containment) on character lists. -/
def isSubstr : List Char → List Char → Bool
  | pat, [] => pat.isEmpty
  | pat, s@(_ :: rest) => startsWithL pat s || isSubstr pat rest

/-- Python `pat in s` on strings. -/
def containsSub (s pat : String) : Bool := isSubstr pat.data s.data

/-- Python `str.lower()` (ASCII, as in the source data). -/
def strLower (s : String) : String := String.mk (s.data.map Char.toLower)

/-- Python `str.upper()` (ASCII, as in the source data). -/
def strUpper (s : String) : String := String.mk (s.data.map Char.toUpper)

/-- Python whitespace for `str.split()` / `str.strip()`. -/
def isPyWs (c : Char) : Bool :=
  c == ' ' || c == '\t' || c == '\n' || c == '\x0d' || c == '\x0b' || c == '\x0c'

/-- Python `str.strip()` on a character list. -/
def pyStrip (s : List Char) : List Char :=
  ((s.dropWhile isPyWs).reverse.dropWhile isPyWs).reverse

/-- Python `str.rstrip('?!.')` on a character list. -/
def pyRstripPunct (s : List Char) : List Char :=
  (s.reverse.dropWhile (fun c => c == '?' || c == '!' || c == '.')).reverse

/-! ## Data model of `agricultural_rag_pipeline.py` -/

/-- The fixed similarity threshold `self.similarity_threshold = 0.85`. -/
def similarity_threshold : ℚ := mkRat 85 100

/-- Fixed message for non-agriculture queries,
`response_cache["NON_AGRICULTURE"]` (the message the spec calls M1). -/
def M1 : String := "I can answer only agriculture related queries."

/-- Fixed fallback message, `response_cache["NO_RELEVANT_CHUNKS"]` (the
message the spec calls M2). -/
def M2 : String :=
  "I don\x27t know. I can help you by transferring the call to subject matter expertise if needed."

/-- The response-type literal the code returns for the no-context branch.
The spec names this enumeration case `NO_RELEVANT_CONTEXT`; the code spells
the same terminal case `"NO_RELEVANT_CHUNKS"`. -/
def NO_RELEVANT_CONTEXT : String := "NO_RELEVANT_CHUNKS"

/-- One retrieved result dict built in `retrieve_ultra_fast`:
`{content, metadata, score, original_score}`. -/
structure RetrievedChunk where
  content : String
  metadata : String
  score : ℚ
  original_score : ℚ
deriving DecidableEq

/-- One entry of the parallel chunk store `self.chunks`. -/
structure ChunkData where
  content : String
  metadata : String
deriving DecidableEq

/-- One `(score, idx)` pair returned by `self.index.search`. -/
structure SearchHit where
  score : ℚ
  idx : Int
deriving DecidableEq

/-- The result dict of `query_agricultural_knowledge` (content fields; the
`performance` sub-dict is modelled separately by `Performance`). -/
structure Envelope where
  question : String
  intent : String
  answer : String
  response_type : String
  retrieved_chunks : List RetrievedChunk
  num_chunks_used : Nat
  top_similarity : ℚ
deriving DecidableEq

/-! ## Intent classification (`_classify_with_openai`, lines 165-209) -/

/-- The classification prompt built in `_classify_with_openai`. -/
def classification_prompt (query : String) : String :=
  "Classify this query as either AGRICULTURE or NON_AGRICULTURE.\n\nAGRICULTURE examples:\n- What is Dormulin used for?\n- How to control thrips in chilli?\n- What fertilizer is best for tomato?\n- How to grow banana plants?\n- What pesticide controls aphids?\n\nNON_AGRICULTURE examples:\n- How to lose weight quickly?\n- Best smartphones under 30k\n- How to learn Python programming?\n- How to do proper pullups?\n- What are diabetes symptoms?\n\nQuery: \"" ++ query ++ "\"\n\nClassification (respond with only AGRICULTURE or NON_AGRICULTURE):"

/-- Shallow embedding of `_classify_with_openai`. The chat model is the
oracle `llm`; a Python exception anywhere in the call is an
`Except.error`, which the `try/except` of the source turns into the
conservative default `"NON_AGRICULTURE"`. The reply is stripped,
uppercased, and scanned for the two literals, `NON_AGRICULTURE` first. -/
def classify_with_openai (llm : String → Except Unit String)
    (query : String) : String :=
  match llm (classification_prompt query) with
  | Except.error _ => "NON_AGRICULTURE"
  | Except.ok raw_result =>
    let result := strUpper (String.mk (pyStrip raw_result.data))
    if containsSub result "NON_AGRICULTURE" then "NON_AGRICULTURE"
    else if containsSub result "AGRICULTURE" then "AGRICULTURE"
    else "NON_AGRICULTURE"

/-- `classify_intent_ultra_fast` just delegates to the model call. -/
def classify_intent_ultra_fast (llm : String → Except Unit String)
    (query : String) : String :=
  classify_with_openai llm query

/-! ## Retrieval (`retrieve_ultra_fast`, lines 211-240) -/

/-- Shallow embedding of `retrieve_ultra_fast`. `indexLoaded` models
`self.index` being truthy; `embed` models the external embedding call
(fallible, and the source wraps it in NO `try/except`, so its error
propagates); `search` models `faiss.normalize_L2` plus
`self.index.search(·, top_k)`; `chunks` models the chunk store lookup.
Hits with a negative index are filtered out. -/
def retrieve_ultra_fast (indexLoaded : Bool)
    (embed : String → Except Unit (List ℚ))
    (search : List ℚ → Nat → List SearchHit)
    (chunks : Int → ChunkData)
    (query : String) (top_k : Nat) : Except Unit (List RetrievedChunk) :=
  if indexLoaded = false then Except.ok []
  else
    match embed query with
    | Except.error e => Except.error e
    | Except.ok emb =>
      Except.ok ((search emb top_k).filterMap (fun h =>
        if 0 ≤ h.idx then
          some { content := (chunks h.idx).content
                 metadata := (chunks h.idx).metadata
                 score := h.score
                 original_score := h.score }
        else none))

/-! ## Answer synthesis (`generate_ultra_fast_answer`, lines 242-271) -/

/-- The generation prompt built in `generate_ultra_fast_answer`. -/
def gen_prompt (context query : String) : String :=
  "Based on this context, provide a concise answer:\n\nContext: " ++ context ++
    "\n\nQuestion: " ++ query ++ "\n\nAnswer:"

/-- Shallow embedding of `generate_ultra_fast_answer`. Returns
`(answer, response_type, called)` where `called` records whether the
language-model generation oracle `gen` was invoked. The generation call
is NOT wrapped in `try/except` in the source, so its error propagates. -/
def generate_ultra_fast_answer (gen : String → Except Unit String)
    (query intent : String) (retrieved_chunks : List RetrievedChunk) :
    Except Unit (String × String × Bool) :=
  if intent = "NON_AGRICULTURE" then Except.ok (M1, "NON_AGRICULTURE", false)
  else
    match retrieved_chunks with
    | [] => Except.ok (M2, NO_RELEVANT_CONTEXT, false)
    | c :: _ =>
      if c.original_score < similarity_threshold then
        Except.ok (M2, NO_RELEVANT_CONTEXT, false)
      else
        match retrieved_chunks.filter
            (fun ch => similarity_threshold ≤ ch.original_score) with
        | [] => Except.ok (M2, NO_RELEVANT_CONTEXT, false)
        | r :: _ =>
          match gen (gen_prompt r.content query) with
          | Except.error e => Except.error e
          | Except.ok text =>
            Except.ok (String.mk (pyStrip text.data), "AGRICULTURE_WITH_CONTEXT", true)

/-! ## Orchestration (`query_agricultural_knowledge`, lines 273-324) -/

/-- The speed-hack keyword list of `query_agricultural_knowledge`
(line 279); its first six entries are the domain-product allow-list. -/
def agriculture_keywords : List String :=
  ["dormulin", "zetol", "tracs", "akre", "trail", "actin",
   "chilli", "tomato", "banana", "thrips", "aphids", "borer"]

/-- The six domain-product terms (the product allow-list of the spec). -/
def product_terms : List String :=
  ["dormulin", "zetol", "tracs", "akre", "trail", "actin"]

/-- Intent as computed by `query_agricultural_knowledge` (lines 277-288):
keyword shortcut on the lowercased question, model call otherwise. -/
def pipeline_intent (classifyLLM : String → Except Unit String)
    (question : String) : String :=
  if agriculture_keywords.any (fun k => containsSub (strLower question) k) then
    "AGRICULTURE"
  else classify_intent_ultra_fast classifyLLM question

/-- Shallow embedding of `query_agricultural_knowledge` (content part;
the timing part is `mk_performance`). Retrieval runs only for intent
`"AGRICULTURE"`, with `top_k = 1`. Errors of the un-guarded embedding
and generation calls propagate to the caller. -/
def query_agricultural_knowledge (classifyLLM : String → Except Unit String)
    (indexLoaded : Bool)
    (embed : String → Except Unit (List ℚ))
    (search : List ℚ → Nat → List SearchHit)
    (chunks : Int → ChunkData)
    (genLLM : String → Except Unit String)
    (question : String) : Except Unit Envelope :=
  let intent := pipeline_intent classifyLLM question
  match (if intent = "AGRICULTURE" then
          retrieve_ultra_fast indexLoaded embed search chunks question 1
         else Except.ok []) with
  | Except.error e => Except.error e
  | Except.ok retrieved =>
    match generate_ultra_fast_answer genLLM question intent retrieved with
    | Except.error e => Except.error e
    | Except.ok (answer, response_type, _) =>
      Except.ok
        { question := question
          intent := intent
          answer := answer
          response_type := response_type
          retrieved_chunks := retrieved
          num_chunks_used :=
            (retrieved.filter
              (fun c => similarity_threshold ≤ c.original_score)).length
          top_similarity :=
            match retrieved with
            | [] => 0
            | c :: _ => c.score }

/-! ## Timing (`query_agricultural_knowledge` lines 275-308) -/

/-- The `performance` sub-dict of the result. -/
structure Performance where
  total_time : ℚ
  intent_time : ℚ
  retrieval_time : ℚ
  generation_time : ℚ
deriving DecidableEq

/-- The IVR cap: line 306 forces any total above `1.4` down to `1.4`. -/
def ivr_cap : ℚ := mkRat 7 5

/-- Line 306-308: `if total_time > 1.4: total_time = 1.4`. -/
def reported_total (raw : ℚ) : ℚ := if ivr_cap < raw then ivr_cap else raw

/-- Timing assembly of `query_agricultural_knowledge`, parametrised by the
successive `time.time()` readings of one run: `t0` start, `t1`/`t2` around
the intent model call, `t3`/`t4` around retrieval, `t5`/`t6` around
generation, `t7` end. When the keyword `shortcut` fires, the code skips
the intent call and hard-codes `intent_time = 0.001`. -/
def mk_performance (shortcut : Bool) (t0 t1 t2 t3 t4 t5 t6 t7 : ℚ) :
    Performance :=
  { total_time := reported_total (t7 - t0)
    intent_time := if shortcut then mkRat 1 1000 else t2 - t1
    retrieval_time := t4 - t3
    generation_time := t6 - t5 }

/-! ## Query cache (`rag/.system/optimization_engine.py`) -/

/-- One stored entry of `self.query_cache` (`cache_new_query`,
lines 167-187): the content fields of the result, plus the access counter
that `get_cached_result` maintains (absent at store time, modelled as 0). -/
structure CachedEntry where
  query : String
  answer : String
  intent : String
  response_type : String
  retrieved_chunks : List RetrievedChunk
  access_count : Nat
deriving DecidableEq

/-- Helper for `sWords`: `acc` is the reversed current word. -/
def sWordsAux : List Char → List Char → List (List Char)
  | [], acc => if acc.isEmpty then [] else [acc.reverse]
  | c :: rest, acc =>
    if isPyWs c then
      if acc.isEmpty then sWordsAux rest [] else acc.reverse :: sWordsAux rest []
    else sWordsAux rest (c :: acc)

/-- Python `str.split()` (no argument): split on whitespace runs, with no
empty words. -/
def sWords (s : List Char) : List (List Char) := sWordsAux s []

/-- The normalisation of `_get_query_hash` (lines 48-56):
lower, strip, collapse inner whitespace, strip trailing `?!.`; the md5
digest of the result is modelled by the normalised text itself. -/
def hashNorm (q : String) : String :=
  let n := pyStrip (strLower q).data
  let joined := List.intercalate [' '] (sWords n)
  String.mk (pyRstripPunct joined)

/-- The normalisation used on both sides of the fuzzy comparison
(`query.lower().strip().rstrip('?!.')`, lines 73-75 and 138-140). -/
def fuzzNorm (q : String) : String :=
  String.mk (pyRstripPunct (pyStrip (strLower q).data))

/-- Shallow embedding of `_queries_similar` (lines 147-165): reject when
the lengths differ by more than 5; else compare the word sets, requiring
word overlap of at least 80 percent of the union (`4 * union ≤ 5 *
overlap` models `overlap / total_unique >= 0.8`). -/
def queries_similar (query1 query2 : String) : Bool :=
  if 5 < max query1.data.length query2.data.length -
        min query1.data.length query2.data.length then false
  else
    let words1 := (sWords query1.data).dedup
    let words2 := (sWords query2.data).dedup
    if words1.isEmpty || words2.isEmpty then false
    else
      let overlap := (words1.filter (fun w => words2.contains w)).length
      let total_unique := (words1 ++ words2).dedup.length
      4 * total_unique ≤ 5 * overlap

/-- The entry found by `get_cached_result` / `is_cached` (lines 63-79 and
131-145): exact hash lookup first, then the first stored entry whose
stored query text is fuzzily similar to the incoming one. -/
def findCached (cache : List (String × CachedEntry)) (query : String) :
    Option CachedEntry :=
  match List.lookup (hashNorm query) cache with
  | some e => some e
  | none =>
    (cache.find? (fun kv =>
      queries_similar (fuzzNorm query) (fuzzNorm kv.2.query))).map Prod.snd

/-- Shallow embedding of `get_cached_result` (lines 63-129), content part:
the replayed result dict takes `question` from the INCOMING query and all
content fields from the stored entry; `num_chunks_used` and
`top_similarity` are recomputed from the stored chunks. The fabricated
`performance` numbers are timing-only and are not modelled. -/
def get_cached_result (cache : List (String × CachedEntry))
    (query : String) : Option Envelope :=
  (findCached cache query).map (fun e =>
    { question := query
      intent := e.intent
      answer := e.answer
      response_type := e.response_type
      retrieved_chunks := e.retrieved_chunks
      num_chunks_used :=
        (e.retrieved_chunks.filter
          (fun c => similarity_threshold ≤ c.original_score)).length
      top_similarity :=
        match e.retrieved_chunks with
        | [] => 0
        | c :: _ => c.score })

/-- Shallow embedding of `cache_new_query` (lines 167-187): insert-if-absent
keyed by the normalised query text, storing the content fields of the
result (a Python dict insert appends in iteration order). -/
def cache_new_query (cache : List (String × CachedEntry))
    (query : String) (result : Envelope) : List (String × CachedEntry) :=
  if (List.lookup (hashNorm query) cache).isSome then cache
  else cache ++ [(hashNorm query,
    { query := query
      answer := result.answer
      intent := result.intent
      response_type := result.response_type
      retrieved_chunks := result.retrieved_chunks
      access_count := 0 })]

/-! ## Vocabulary corrector (`vocabulary_corrector.py`)

`correct_query` (lines 41-66) runs, for each variant key sorted by length
longest first, `re.sub(r'\b' + re.escape(term) + r'\b', canonical, text,
flags=re.IGNORECASE)`. The regex is a literal between two word
boundaries; it is modelled below by a character scanner with the exact
`\b` semantics: a boundary sits between two positions exactly when one
side is a word character (`[A-Za-z0-9_]`) and the other is not (string
edges count as non-word). `re.sub` replaces the non-overlapping
leftmost matches of the ORIGINAL text. -/

/-- Regex `\w` over the ASCII data of this repository. -/
def isWordChar (c : Char) : Bool := c.isAlphanum || c == '_'

/-- Word-ness of an optional character; the string edge is non-word. -/
def isWordOpt : Option Char → Bool
  | none => false
  | some c => isWordChar c

/-- Case-insensitive prefix test (`re.IGNORECASE` on a literal). -/
def ciStarts : List Char → List Char → Bool
  | [], _ => true
  | _ :: _, [] => false
  | a :: as, b :: bs => (a.toLower == b.toLower) && ciStarts as bs

/-- Case-insensitive equality of character lists. -/
def ciEqL (a b : List Char) : Bool :=
  a.map Char.toLower == b.map Char.toLower

/-- Does `\b k \b` (with `k` a literal) match at the start of `s`, where
`prev` is the character just before `s` in the full text? -/
def matchHere (prev : Option Char) (k s : List Char) : Bool :=
  ciStarts k s &&
  (match s.head? with
   | none => false
   | some c => isWordOpt prev != isWordChar c) &&
  (match (s.take k.length).getLast? with
   | none => false
   | some c => isWordChar c != isWordOpt (s.drop k.length).head?)

/-- Scanner for `re.sub(r'\b k \b', r, ·, IGNORECASE)` with a nonempty
literal `k = k0 :: ks`: walk the text left to right, splice `r` over each
leftmost match, resume after the matched slice (whose last character is
the boundary context for the rest). The first argument is fuel, a
termination artifact: every call keeps it at least the text length, and
each step consumes at least one character, so the fuel-exhausted branch
is never reached from `reSubW`. -/
def reSubF (k0 : Char) (ks r : List Char) :
    Nat → Option Char → List Char → List Char
  | 0, _, s => s
  | _ + 1, _, [] => []
  | fuel + 1, prev, c :: rest =>
    if matchHere prev (k0 :: ks) (c :: rest) then
      r ++ reSubF k0 ks r fuel ((c :: rest).take (k0 :: ks).length).getLast?
        ((c :: rest).drop (k0 :: ks).length)
    else c :: reSubF k0 ks r fuel (some c) rest

/-- One full `re.sub` call of `correct_query` (the vocabulary keys are
nonempty; an empty pattern never occurs in the source data). -/
def reSubW (k r s : List Char) : List Char :=
  match k with
  | [] => s
  | k0 :: ks => reSubF k0 ks r s.length none s

/-- The boundary context just before position `i` of `s`. -/
def prevAt (s : List Char) (i : Nat) : Option Char := (s.take i).getLast?

/-- The boundary context the scanner carries at offset `i` into the text
when it was started with context `prev`. -/
def scanCtx (s : List Char) (prev : Option Char) (i : Nat) : Option Char :=
  if i = 0 then prev else (s.take i).getLast?

/-- Numeric characterisation of regex word characters. -/
def wordCharNat (n : Nat) : Bool :=
  (48 ≤ n && n ≤ 57) || (65 ≤ n && n ≤ 90) || (97 ≤ n && n ≤ 122) || (n == 95)

/-- Does `\b k \b` match at position `i` of `s`? -/
def matchAtPos (k s : List Char) (i : Nat) : Bool :=
  matchHere (prevAt s i) k (s.drop i)

/-- Does `\b k \b` match anywhere in `s` (a whole-word, case-insensitive
occurrence of the variant `k`)? -/
def hasWholeWord (k s : List Char) : Bool :=
  (List.range (s.length + 1)).any (matchAtPos k s)

/-- Stable insertion, longest first: `a` goes in front of the first
element that is not longer than it. -/
def insertLen (a : String) : List String → List String
  | [] => [a]
  | b :: rest =>
    if b.data.length ≤ a.data.length then a :: b :: rest
    else b :: insertLen a rest

/-- Stable sort by length, longest first. -/
def sortLenDesc : List String → List String
  | [] => []
  | a :: rest => insertLen a (sortLenDesc rest)

/-- The iteration order of `correct_query` line 57:
`sorted(self.correction_map.keys(), key=len, reverse=True)`: Python
`sorted` is a stable sort, so it is modelled by a stable
longest-first sort of the keys in dict insertion order. -/
def sorted_terms (cmap : List (String × String)) : List String :=
  sortLenDesc (cmap.map Prod.fst)

/-- Shallow embedding of `VocabularyCorrector.correct_query`
(lines 41-66): identity on an empty query or an empty correction map,
else fold the word-boundary substitution over the keys, longest first.
The correction map is the flat dict of `_build_correction_map`, modelled
as an association list in insertion order. -/
def correct_query (cmap : List (String × String)) (query : String) :
    String :=
  if query.data.isEmpty || cmap.isEmpty then query
  else
    (sorted_terms cmap).foldl (fun acc k =>
      match List.lookup k cmap with
      | some c => String.mk (reSubW k.data c.data acc.data)
      | none => acc) query

/-! ### Token-level companions used to reason about `correct_query` -/

/-- Apply `f` to every maximal word-character run of `s`, keeping the
separator characters. -/
def wordMap (f : List Char → List Char) (s : List Char) : List Char :=
  match s with
  | [] => []
  | c :: rest =>
    if isWordChar c then
      f (c :: rest.takeWhile isWordChar) ++
        wordMap f (rest.dropWhile isWordChar)
    else c :: wordMap f rest
termination_by s.length
decreasing_by
· simp only [List.length_cons]
  exact Nat.lt_succ_of_le (List.Sublist.length_le (List.dropWhile_sublist _))
· simp

/-- The per-token effect of one substitution with a single-word key. -/
def tokSub (k r w : List Char) : List Char := if ciEqL w k then r else w

/-- The per-token effect of the whole key fold of `correct_query`. -/
def applyTok (cmap : List (String × String)) (keys : List String)
    (w : List Char) : List Char :=
  keys.foldl (fun acc k =>
    if ciEqL acc k.data then
      match List.lookup k cmap with
      | some c => c.data
      | none => acc
    else acc) w

/-- A nonempty all-word-character list (a single word). -/
def wordish (l : List Char) : Bool := !l.isEmpty && l.all isWordChar

/-- Shape of a correction table in which every variant key and every
canonical term is a single word, keys are lowercase, and every canonical
term is itself a key of the table mapping to itself (the invariant
`_build_correction_map` is said to establish). -/
def singleWordTable (cmap : List (String × String)) : Bool :=
  cmap.all (fun kc =>
    wordish kc.1.data && wordish kc.2.data &&
    kc.1.data.map Char.toLower == kc.1.data &&
    (List.lookup (strLower kc.2) cmap == some kc.2))

/-- Only the self-mapping part of the table invariant: every canonical
term, lowercased, is a key of the table mapping back to that canonical
term. This is the premise the idempotence claim cites. -/
def canonicalsSelfMap (cmap : List (String × String)) : Bool :=
  cmap.all (fun kc => List.lookup (strLower kc.2) cmap == some kc.2)

/-- A correction table of the shape `_build_correction_map` produces
(every canonical term maps to itself, here via the key of its own
lowercasing), with a multi-word canonical term that contains one of its
own variant keys as a whole word — the shape of product entries such as
`Tracs Sure` with spoken variant `tracs`. -/
def vocabT0 : List (String × String) :=
  [("tracs sure", "Tracs Sure"), ("tracs", "Tracs Sure")]

/-- A correction table in which all variant keys and canonical terms are
single words, as in the misspelling entries of the vocabulary
(`Dormolin` for `Dormulin`, `Zetal` for `Zetol`). -/
def vocabT1 : List (String × String) :=
  [("dormulin", "Dormulin"), ("dormolin", "Dormulin"),
   ("zetol", "Zetol"), ("zetal", "Zetol")]

/-! ## Character-level facts about ASCII case folding -/

/-- Value of `Char.ofNat` on a valid code point. -/
theorem toNat_ofNat_valid (n : Nat) (h : n.isValidChar) :
    (Char.ofNat n).toNat = n := by
  unfold Char.ofNat
  rw [dif_pos h]
  simp [Char.ofNatAux, Char.toNat, UInt32.toNat, BitVec.toNat_ofNatLt]

/-- Word characters are exactly the code points accepted by
`wordCharNat`. -/
theorem isWordChar_eq_wordCharNat (c : Char) :
    isWordChar c = wordCharNat c.toNat := by
  unfold isWordChar wordCharNat Char.isAlphanum Char.isAlpha Char.isUpper
    Char.isLower Char.isDigit
  have h7 : (c = '_') ↔ c.toNat = 95 := by
    constructor
    · intro h; subst h; rfl
    · intro h
      have hc := Char.ofNat_toNat c
      rw [h] at hc
      exact hc.symm
  have e1 : (decide (c.val ≥ 65)) = decide (65 ≤ c.toNat) :=
    decide_eq_decide.mpr Iff.rfl
  have e2 : (decide (c.val ≤ 90)) = decide (c.toNat ≤ 90) :=
    decide_eq_decide.mpr Iff.rfl
  have e3 : (decide (c.val ≥ 97)) = decide (97 ≤ c.toNat) :=
    decide_eq_decide.mpr Iff.rfl
  have e4 : (decide (c.val ≤ 122)) = decide (c.toNat ≤ 122) :=
    decide_eq_decide.mpr Iff.rfl
  have e5 : (decide (c.val ≥ 48)) = decide (48 ≤ c.toNat) :=
    decide_eq_decide.mpr Iff.rfl
  have e6 : (decide (c.val ≤ 57)) = decide (c.toNat ≤ 57) :=
    decide_eq_decide.mpr Iff.rfl
  have e7 : (c == '_') = (c.toNat == 95) := by
    rw [Bool.eq_iff_iff]
    simp only [beq_iff_eq]
    exact h7
  rw [e1, e2, e3, e4, e5, e6, e7]
  rw [Bool.eq_iff_iff]
  simp only [Bool.or_eq_true, Bool.and_eq_true, decide_eq_true_eq, beq_iff_eq]
  omega

/-- Code point of `Char.toLower`. -/
theorem toLower_toNat (c : Char) :
    c.toLower.toNat =
      if 65 ≤ c.toNat ∧ c.toNat ≤ 90 then c.toNat + 32 else c.toNat := by
  unfold Char.toLower
  split
  · rename_i h
    rw [if_pos ⟨h.1, h.2⟩]
    exact toNat_ofNat_valid _ (Or.inl (by omega))
  · rename_i h
    rw [if_neg (fun hh => h ⟨hh.1, hh.2⟩)]

/-- ASCII case folding does not change whether a character is a word
character. -/
theorem isWordChar_toLower (c : Char) :
    isWordChar c.toLower = isWordChar c := by
  rw [isWordChar_eq_wordCharNat, isWordChar_eq_wordCharNat, toLower_toNat]
  split
  · rename_i h
    rw [Bool.eq_iff_iff]
    simp only [wordCharNat, Bool.or_eq_true, Bool.and_eq_true,
      decide_eq_true_eq, beq_iff_eq]
    omega
  · rfl

/-! ## C1 — threshold gate in the answer synthesizer -/

/-- C1: for intent `AGRICULTURE`, when the retrieved list is empty or the
first result scores strictly below the similarity threshold `0.85`, the
synthesizer returns exactly the fixed message M2 with response type
`NO_RELEVANT_CONTEXT` (code literal `"NO_RELEVANT_CHUNKS"`), and the
language-model generation oracle is not called (flag `false`), whatever
reply the oracle would give. -/
theorem c1_threshold_gate (gen : String → Except Unit String)
    (query : String) (retrieved : List RetrievedChunk)
    (h : retrieved = [] ∨ ∃ c rest, retrieved = c :: rest ∧
      c.original_score < similarity_threshold) :
    generate_ultra_fast_answer gen query "AGRICULTURE" retrieved =
      Except.ok (M2, NO_RELEVANT_CONTEXT, false) := by
  rcases h with h | ⟨c, rest, h, hc⟩
  · subst h
    rfl
  · subst h
    simp [generate_ultra_fast_answer, hc]

/-- C1 witness: concrete instances of both branches of the gate. -/
theorem c1_threshold_gate_witness :
    generate_ultra_fast_answer (fun _ => Except.ok "ignored") "q"
      "AGRICULTURE" [] = Except.ok (M2, NO_RELEVANT_CONTEXT, false) ∧
    generate_ultra_fast_answer (fun _ => Except.ok "ignored") "q"
      "AGRICULTURE" [⟨"text", "meta", mkRat 1 2, mkRat 1 2⟩] =
      Except.ok (M2, NO_RELEVANT_CONTEXT, false) :=
  ⟨c1_threshold_gate _ _ _ (Or.inl rfl),
   c1_threshold_gate _ _ _ (Or.inr ⟨_, _, rfl, by decide⟩)⟩

/-! ## C2 — non-agriculture short-circuit -/

/-- C2: when the pipeline classifies a question as `NON_AGRICULTURE`, the
result envelope is exactly message M1 with response type
`NON_AGRICULTURE` and an empty retrieved set; the run is independent of
the retrieval oracles (retrieval is not invoked); and the synthesizer
gives M1 for intent `NON_AGRICULTURE` regardless of any retrieval
results. -/
theorem c2_non_agriculture_short_circuit
    (classifyLLM : String → Except Unit String) (indexLoaded : Bool)
    (embed : String → Except Unit (List ℚ))
    (search : List ℚ → Nat → List SearchHit) (chunks : Int → ChunkData)
    (genLLM : String → Except Unit String) (question : String)
    (h : pipeline_intent classifyLLM question = "NON_AGRICULTURE") :
    query_agricultural_knowledge classifyLLM indexLoaded embed search
        chunks genLLM question =
      Except.ok
        { question := question
          intent := "NON_AGRICULTURE"
          answer := M1
          response_type := "NON_AGRICULTURE"
          retrieved_chunks := []
          num_chunks_used := 0
          top_similarity := 0 } ∧
    (∀ (indexLoaded2 : Bool) embed2 search2 chunks2,
      query_agricultural_knowledge classifyLLM indexLoaded2 embed2 search2
        chunks2 genLLM question =
      query_agricultural_knowledge classifyLLM indexLoaded embed search
        chunks genLLM question) ∧
    (∀ retrieved : List RetrievedChunk,
      generate_ultra_fast_answer genLLM question "NON_AGRICULTURE"
        retrieved = Except.ok (M1, "NON_AGRICULTURE", false)) := by
  refine ⟨?_, ?_, fun retrieved => rfl⟩
  · simp [query_agricultural_knowledge, h, generate_ultra_fast_answer]
  · intro i2 e2 s2 c2
    simp [query_agricultural_knowledge, h]

/-- C2 witness: a concrete non-agriculture run. -/
theorem c2_non_agriculture_short_circuit_witness :
    query_agricultural_knowledge (fun _ => Except.ok "NON_AGRICULTURE")
      true (fun _ => Except.error ()) (fun _ _ => []) (fun _ => ⟨"", ""⟩)
      (fun _ => Except.ok "x") "how to fix my laptop" =
      Except.ok
        { question := "how to fix my laptop"
          intent := "NON_AGRICULTURE"
          answer := M1
          response_type := "NON_AGRICULTURE"
          retrieved_chunks := []
          num_chunks_used := 0
          top_similarity := 0 } :=
  (c2_non_agriculture_short_circuit _ _ _ _ _ _ _ (by decide)).1

/-! ## C3 — product allow-list wins -/

/-- C3: any question containing one of the six domain-product terms (after
lowercasing) is classified `AGRICULTURE` by the pipeline, whatever the
language-model classification oracle would answer — the keyword shortcut
fires before, and instead of, every other check. -/
theorem c3_product_allow_list (question p : String)
    (hp : p ∈ product_terms)
    (h : containsSub (strLower question) p = true) :
    ∀ classifyLLM : String → Except Unit String,
      pipeline_intent classifyLLM question = "AGRICULTURE" := by
  intro classifyLLM
  unfold pipeline_intent
  rw [if_pos]
  refine List.any_eq_true.mpr ⟨p, ?_, h⟩
  fin_cases hp <;> decide

/-- C3 witness: a query holding both a product term and out-of-domain
keywords is still classified agriculture, even when the model oracle
would say otherwise. -/
theorem c3_product_allow_list_witness :
    pipeline_intent (fun _ => Except.ok "NON_AGRICULTURE")
      "dormulin smartphone budget" = "AGRICULTURE" :=
  c3_product_allow_list "dormulin smartphone budget" "dormulin"
    (by decide) (by decide) _

/-! ## C4 — classifier reply parsing and failure default -/

/-- C4: the classifier always returns one of the two intents; on a
successful model reply it returns `NON_AGRICULTURE` when that literal
occurs in the stripped, uppercased reply, else `AGRICULTURE` when that
literal occurs, else `NON_AGRICULTURE`; and on any call failure it
returns `NON_AGRICULTURE`. -/
theorem c4_classifier_reply_parsing (llm : String → Except Unit String)
    (q : String) :
    (classify_with_openai llm q = "AGRICULTURE" ∨
      classify_with_openai llm q = "NON_AGRICULTURE") ∧
    (∀ r, llm (classification_prompt q) = Except.ok r →
      classify_with_openai llm q =
        (if containsSub (strUpper (String.mk (pyStrip r.data)))
            "NON_AGRICULTURE" then "NON_AGRICULTURE"
         else if containsSub (strUpper (String.mk (pyStrip r.data)))
            "AGRICULTURE" then "AGRICULTURE"
         else "NON_AGRICULTURE")) ∧
    (∀ e : Unit, llm (classification_prompt q) = Except.error e →
      classify_with_openai llm q = "NON_AGRICULTURE") := by
  refine ⟨?_, fun r hr => ?_, fun e he => ?_⟩
  · unfold classify_with_openai
    cases llm (classification_prompt q) with
    | error e => exact Or.inr rfl
    | ok r =>
      dsimp only
      split
      · exact Or.inr rfl
      · split
        · exact Or.inl rfl
        · exact Or.inr rfl
  · unfold classify_with_openai
    rw [hr]
  · unfold classify_with_openai
    rw [he]

/-- C4 witness: a lowercase `non_agriculture` reply parses (via strip and
uppercase) to `NON_AGRICULTURE`, an `AGRICULTURE` reply to `AGRICULTURE`,
garbage to `NON_AGRICULTURE`, and a failed call to `NON_AGRICULTURE`. -/
theorem c4_classifier_reply_parsing_witness :
    classify_with_openai (fun _ => Except.ok " non_agriculture ") "x" =
      "NON_AGRICULTURE" ∧
    classify_with_openai (fun _ => Except.ok "AGRICULTURE.") "x" =
      "AGRICULTURE" ∧
    classify_with_openai (fun _ => Except.ok "maybe") "x" =
      "NON_AGRICULTURE" ∧
    classify_with_openai (fun _ => Except.error ()) "x" =
      "NON_AGRICULTURE" :=
  ⟨((c4_classifier_reply_parsing (fun _ => Except.ok " non_agriculture ")
      "x").2.1 " non_agriculture " rfl).trans (by decide),
   ((c4_classifier_reply_parsing (fun _ => Except.ok "AGRICULTURE.")
      "x").2.1 "AGRICULTURE." rfl).trans (by decide),
   ((c4_classifier_reply_parsing (fun _ => Except.ok "maybe")
      "x").2.1 "maybe" rfl).trans (by decide),
   (c4_classifier_reply_parsing (fun _ => Except.error ()) "x").2.2 () rfl⟩

/-! ## C5 — latency bookkeeping -/

/-- Value of the IVR cap as a plain fraction. -/
theorem ivr_cap_eq : ivr_cap = 7 / 5 := by
  unfold ivr_cap
  rw [Rat.mkRat_eq_div]
  norm_num

/-- Value of the similarity threshold as a plain fraction. -/
theorem similarity_threshold_eq : similarity_threshold = 17 / 20 := by
  unfold similarity_threshold
  rw [Rat.mkRat_eq_div]
  norm_num

/-- Value of the hard-coded shortcut intent time as a plain fraction. -/
theorem shortcut_time_eq : mkRat 1 1000 = 1 / 1000 := by
  rw [Rat.mkRat_eq_div]
  norm_num

/-- C5 counterexample: a run whose generation stage alone takes far longer
than the IVR cap. The three stage durations sum to 100 seconds, yet line
306 forces the reported `total_time` down to `1.4`, so the reported total
is nowhere near the stage sum (off by 98.6, far outside any small
tolerance such as one second). -/
theorem c5_total_time_counterexample :
    (mk_performance false 0 0 0 0 50 50 100 100).intent_time +
      (mk_performance false 0 0 0 0 50 50 100 100).retrieval_time +
      (mk_performance false 0 0 0 0 50 50 100 100).generation_time = 100 ∧
    (mk_performance false 0 0 0 0 50 50 100 100).total_time = ivr_cap ∧
    ¬(|(mk_performance false 0 0 0 0 50 50 100 100).total_time - 100| ≤ 1) := by
  refine ⟨by norm_num [mk_performance], ?_, fun hle => ?_⟩
  · norm_num [mk_performance, reported_total, ivr_cap_eq]
  · have h1 := (abs_le.mp hle).1
    rw [show (mk_performance false 0 0 0 0 50 50 100 100).total_time =
        7 / 5 by norm_num [mk_performance, reported_total, ivr_cap_eq]] at h1
    norm_num at h1

/-- C5 amended: for any monotone sequence of clock readings, the three
stage durations are non-negative and the reported total is the raw
elapsed time clamped above at the IVR cap `1.4`: below the cap it equals
the raw elapsed time (which bounds the stage sum from above, up to
orchestration gaps, whenever the intent stage was really measured), but
above the cap the reported total is pinned to `1.4` regardless of the
stage sum. -/
theorem c5_latency_amended (shortcut : Bool) (t0 t1 t2 t3 t4 t5 t6 t7 : ℚ)
    (h01 : t0 ≤ t1) (h12 : t1 ≤ t2) (h23 : t2 ≤ t3) (h34 : t3 ≤ t4)
    (h45 : t4 ≤ t5) (h56 : t5 ≤ t6) (h67 : t6 ≤ t7) :
    0 ≤ (mk_performance shortcut t0 t1 t2 t3 t4 t5 t6 t7).intent_time ∧
    0 ≤ (mk_performance shortcut t0 t1 t2 t3 t4 t5 t6 t7).retrieval_time ∧
    0 ≤ (mk_performance shortcut t0 t1 t2 t3 t4 t5 t6 t7).generation_time ∧
    (t7 - t0 ≤ ivr_cap →
      (mk_performance shortcut t0 t1 t2 t3 t4 t5 t6 t7).total_time = t7 - t0) ∧
    (ivr_cap < t7 - t0 →
      (mk_performance shortcut t0 t1 t2 t3 t4 t5 t6 t7).total_time = ivr_cap) ∧
    (shortcut = false →
      (mk_performance shortcut t0 t1 t2 t3 t4 t5 t6 t7).intent_time +
      (mk_performance shortcut t0 t1 t2 t3 t4 t5 t6 t7).retrieval_time +
      (mk_performance shortcut t0 t1 t2 t3 t4 t5 t6 t7).generation_time ≤
        t7 - t0) := by
  refine ⟨?_, ?_, ?_, fun hle => ?_, fun hlt => ?_, fun hs => ?_⟩
  · cases shortcut
    · simp only [mk_performance, Bool.false_eq_true, if_false]
      linarith
    · simp only [mk_performance, if_true]
      rw [shortcut_time_eq]
      norm_num
  · simp only [mk_performance]
    linarith
  · simp only [mk_performance]
    linarith
  · simp only [mk_performance, reported_total]
    rw [if_neg (not_lt.mpr hle)]
  · simp only [mk_performance, reported_total]
    rw [if_pos hlt]
  · subst hs
    simp only [mk_performance, Bool.false_eq_true, if_false]
    linarith

/-- C5 witness: a concrete fast run, where the reported total equals the
raw elapsed time. -/
theorem c5_latency_amended_witness :
    0 ≤ (mk_performance false 0 0 0 0 1 1 1 1).retrieval_time ∧
    (mk_performance false 0 0 0 0 1 1 1 1).total_time = 1 - 0 := by
  obtain ⟨-, h2, -, h4, -, -⟩ :=
    c5_latency_amended false 0 0 0 0 1 1 1 1 (by norm_num) (by norm_num)
      (by norm_num) (by norm_num) (by norm_num) (by norm_num) (by norm_num)
  exact ⟨h2, h4 (by rw [ivr_cap_eq]; norm_num)⟩

/-! ## C6 — error containment -/

/-- C6 counterexample: a failing embedding call during retrieval of an
agriculture query is NOT caught anywhere (`retrieve_ultra_fast` has no
`try/except`), so the caller of the top-level query function receives the
raw error instead of a conservative default. -/
theorem c6_error_containment_counterexample :
    query_agricultural_knowledge (fun _ => Except.ok "AGRICULTURE") true
      (fun _ => Except.error ()) (fun _ _ => []) (fun _ => ⟨"", ""⟩)
      (fun _ => Except.ok "x") "dormulin" = Except.error () := by
  rfl

/-- C6 amended: of the three defined error conditions, only the unloaded
vector index is handled locally (retrieval degrades to an empty result
set and the pipeline answers M2 / `NO_RELEVANT_CONTEXT`); a failing
embedding call during retrieval and a failing generation call during
synthesis both propagate as uncaught errors to the caller of the
top-level query function. -/
theorem c6_error_containment_amended :
    (∀ (classifyLLM : String → Except Unit String) embed search chunks
        (genLLM : String → Except Unit String) (question : String),
      pipeline_intent classifyLLM question = "AGRICULTURE" →
      query_agricultural_knowledge classifyLLM false embed search chunks
          genLLM question =
        Except.ok
          { question := question
            intent := "AGRICULTURE"
            answer := M2
            response_type := NO_RELEVANT_CONTEXT
            retrieved_chunks := []
            num_chunks_used := 0
            top_similarity := 0 }) ∧
    (∀ (classifyLLM : String → Except Unit String) embed search chunks
        (genLLM : String → Except Unit String) (question : String),
      pipeline_intent classifyLLM question = "AGRICULTURE" →
      embed question = Except.error () →
      query_agricultural_knowledge classifyLLM true embed search chunks
        genLLM question = Except.error ()) ∧
    (∀ (classifyLLM : String → Except Unit String) (indexLoaded : Bool)
        embed search chunks (genLLM : String → Except Unit String)
        (question : String) (c : RetrievedChunk)
        (rest : List RetrievedChunk),
      pipeline_intent classifyLLM question = "AGRICULTURE" →
      retrieve_ultra_fast indexLoaded embed search chunks question 1 =
        Except.ok (c :: rest) →
      similarity_threshold ≤ c.original_score →
      genLLM (gen_prompt c.content question) = Except.error () →
      query_agricultural_knowledge classifyLLM indexLoaded embed search
        chunks genLLM question = Except.error ()) := by
  refine ⟨fun classifyLLM embed search chunks genLLM question h => ?_,
    fun classifyLLM embed search chunks genLLM question h hemb => ?_,
    fun classifyLLM indexLoaded embed search chunks genLLM question c rest
      h hret hsc hgen => ?_⟩
  · simp [query_agricultural_knowledge, h, retrieve_ultra_fast,
      generate_ultra_fast_answer]
  · simp [query_agricultural_knowledge, h, retrieve_ultra_fast, hemb]
  · simp only [query_agricultural_knowledge, h, if_pos, hret]
    have hfilter :
        (c :: rest).filter
            (fun ch => similarity_threshold ≤ ch.original_score) =
          c :: rest.filter
            (fun ch => similarity_threshold ≤ ch.original_score) := by
      simp [List.filter_cons, hsc]
    simp [generate_ultra_fast_answer, not_lt.mpr hsc, hfilter, hgen]

/-- C6 witness: concrete runs of all three amended branches. -/
theorem c6_error_containment_amended_witness :
    query_agricultural_knowledge (fun _ => Except.ok "x") false
      (fun _ => Except.ok []) (fun _ _ => []) (fun _ => ⟨"", ""⟩)
      (fun _ => Except.ok "x") "dormulin" =
      Except.ok
        { question := "dormulin"
          intent := "AGRICULTURE"
          answer := M2
          response_type := NO_RELEVANT_CONTEXT
          retrieved_chunks := []
          num_chunks_used := 0
          top_similarity := 0 } ∧
    query_agricultural_knowledge (fun _ => Except.ok "x") true
      (fun _ => Except.error ()) (fun _ _ => []) (fun _ => ⟨"", ""⟩)
      (fun _ => Except.ok "x") "zetol" = Except.error () ∧
    query_agricultural_knowledge (fun _ => Except.ok "x") true
      (fun _ => Except.ok []) (fun _ _ => [⟨1, 0⟩])
      (fun _ => ⟨"ctx", "m"⟩) (fun _ => Except.error ()) "tracs" =
      Except.error () := by
  refine ⟨c6_error_containment_amended.1 _ _ _ _ _ _ (by decide),
    c6_error_containment_amended.2.1 _ _ _ _ _ _ (by decide) rfl,
    c6_error_containment_amended.2.2 _ _ _ _ _ _ _
      ⟨"ctx", "m", 1, 1⟩ [] (by decide) rfl (by decide) rfl⟩

/-! ## C9 — cache replay -/

/-- A concrete first-run envelope used to exhibit the cache counterexample. -/
def envC9 : Envelope :=
  { question := "What is Dormulin used for?"
    intent := "AGRICULTURE"
    answer := "Apply as directed."
    response_type := "AGRICULTURE_WITH_CONTEXT"
    retrieved_chunks := []
    num_chunks_used := 0
    top_similarity := 0 }

/-- C9 counterexample: a cache hit on a textually different query replays
the stored content, but the replayed envelope is not the stored
computation with only timing changed — its `question` field is the new
incoming text, not the stored one. -/
theorem c9_cache_replay_counterexample :
    (get_cached_result
        (cache_new_query [] "What is Dormulin used for?" envC9)
        "what is dormulin used for").map Envelope.question =
      some "what is dormulin used for" ∧
    (get_cached_result
        (cache_new_query [] "What is Dormulin used for?" envC9)
        "what is dormulin used for").map Envelope.answer =
      some "Apply as directed." ∧
    ("what is dormulin used for" : String) ≠ envC9.question := by
  refine ⟨?_, ?_, by decide⟩ <;> rfl

/-- C9 amended: a replayed cache hit carries exactly the stored answer,
intent, response type and retrieved chunks of the entry it hits (content
is never altered), while its `question` field is set to the incoming
query text (which may differ from the stored one under normalised or
fuzzy key matching); and storing a result caches exactly its content
fields under the normalised query key. -/
theorem c9_cache_replay_amended :
    (∀ (cache : List (String × CachedEntry)) (query : String)
        (env : Envelope),
      get_cached_result cache query = some env →
      env.question = query ∧
      ∃ e, findCached cache query = some e ∧
        env.answer = e.answer ∧ env.intent = e.intent ∧
        env.response_type = e.response_type ∧
        env.retrieved_chunks = e.retrieved_chunks) ∧
    (∀ (cache : List (String × CachedEntry)) (query : String)
        (result : Envelope),
      List.lookup (hashNorm query) cache = none →
      List.lookup (hashNorm query) (cache_new_query cache query result) =
        some
          { query := query
            answer := result.answer
            intent := result.intent
            response_type := result.response_type
            retrieved_chunks := result.retrieved_chunks
            access_count := 0 }) := by
  constructor
  · intro cache query env hit
    unfold get_cached_result at hit
    cases hfind : findCached cache query with
    | none =>
      rw [hfind] at hit
      simp at hit
    | some e =>
      rw [hfind] at hit
      have henv := Option.some_inj.mp hit
      subst henv
      exact ⟨rfl, e, rfl, rfl, rfl, rfl, rfl⟩
  · intro cache query result hmiss
    unfold cache_new_query
    rw [if_neg (by simp [hmiss])]
    induction cache with
    | nil => simp [List.lookup]
    | cons kv rest ih =>
      obtain ⟨k1, e1⟩ := kv
      rw [List.cons_append, List.lookup_cons]
      rw [List.lookup_cons] at hmiss
      split at hmiss
      · exact absurd hmiss (by simp)
      · exact ih hmiss

/-- C9 witness: a concrete store followed by an exact-key replay. -/
theorem c9_cache_replay_amended_witness :
    List.lookup (hashNorm "How to control thrips?")
        (cache_new_query [] "How to control thrips?" envC9) =
      some
        { query := "How to control thrips?"
          answer := envC9.answer
          intent := envC9.intent
          response_type := envC9.response_type
          retrieved_chunks := envC9.retrieved_chunks
          access_count := 0 } :=
  c9_cache_replay_amended.2 [] "How to control thrips?" envC9 rfl

/-! ## C10 — fuzzy cache-key equivalence -/

/-- C10: fuzzy similarity of two (normalised) queries requires the
character lengths to differ by at most 5 AND the word-set overlap to be
at least 80 percent of the word-set union; any fuzzy cache hit comes from
an entry whose stored query is fuzzily similar to the incoming one; hence
two queries whose normalised lengths differ by more than 5 never share a
cache entry through fuzzy matching. -/
theorem c10_fuzzy_cache_equivalence :
    (∀ q1 q2 : String, queries_similar q1 q2 = true →
      max q1.data.length q2.data.length -
        min q1.data.length q2.data.length ≤ 5 ∧
      4 * (((sWords q1.data).dedup ++ (sWords q2.data).dedup).dedup.length) ≤
        5 * (((sWords q1.data).dedup.filter
          (fun w => (sWords q2.data).dedup.contains w)).length)) ∧
    (∀ (cache : List (String × CachedEntry)) (query : String)
        (e : CachedEntry),
      List.lookup (hashNorm query) cache = none →
      findCached cache query = some e →
      queries_similar (fuzzNorm query) (fuzzNorm e.query) = true) ∧
    (∀ (cache : List (String × CachedEntry)) (query : String)
        (e : CachedEntry),
      List.lookup (hashNorm query) cache = none →
      5 < max (fuzzNorm query).data.length (fuzzNorm e.query).data.length -
        min (fuzzNorm query).data.length (fuzzNorm e.query).data.length →
      findCached cache query ≠ some e) := by
  have hfind : ∀ (cache : List (String × CachedEntry)) (query : String)
      (e : CachedEntry),
      List.lookup (hashNorm query) cache = none →
      findCached cache query = some e →
      queries_similar (fuzzNorm query) (fuzzNorm e.query) = true := by
    intro cache query e hmiss hfound
    unfold findCached at hfound
    rw [hmiss] at hfound
    cases hf : cache.find? (fun kv =>
        queries_similar (fuzzNorm query) (fuzzNorm kv.2.query)) with
    | none =>
      rw [hf] at hfound
      simp at hfound
    | some kv =>
      rw [hf] at hfound
      have hkv : kv.2 = e := by simpa using hfound
      subst hkv
      have hp := List.find?_some hf
      exact hp
  have hlen : ∀ q1 q2 : String, queries_similar q1 q2 = true →
      max q1.data.length q2.data.length -
        min q1.data.length q2.data.length ≤ 5 ∧
      4 * (((sWords q1.data).dedup ++ (sWords q2.data).dedup).dedup.length) ≤
        5 * (((sWords q1.data).dedup.filter
          (fun w => (sWords q2.data).dedup.contains w)).length) := by
    intro q1 q2 hsim
    unfold queries_similar at hsim
    split at hsim
    · exact absurd hsim (by simp)
    · constructor
      · omega
      · dsimp only at hsim
        split at hsim
        · exact absurd hsim (by simp)
        · exact of_decide_eq_true hsim
  refine ⟨hlen, hfind, fun cache query e hmiss hgap hfound => ?_⟩
  have h5 := (hlen _ _ (hfind cache query e hmiss hfound)).1
  omega

/-- C10 witness: two differently-punctuated variants of the same question
are fuzzily similar, and the length gate applies to a concrete mismatch. -/
theorem c10_fuzzy_cache_equivalence_witness :
    max ("how to control thrips now" : String).data.length
      ("how to control thrips" : String).data.length -
    min ("how to control thrips now" : String).data.length
      ("how to control thrips" : String).data.length ≤ 5 :=
  (c10_fuzzy_cache_equivalence.1 "how to control thrips now"
    "how to control thrips" (by decide)).1

/-! ## List-level facts about the word-boundary scanner -/

/-- A list that case-folds to an all-word-character list is itself all
word characters. -/
theorem all_wordChar_of_lower_eq {w k : List Char}
    (hk : k.all isWordChar = true)
    (h : w.map Char.toLower = k.map Char.toLower) :
    w.all isWordChar = true := by
  induction w generalizing k with
  | nil => rfl
  | cons a w ih =>
    cases k with
    | nil => simp at h
    | cons b k =>
      simp only [List.map_cons, List.cons.injEq] at h
      simp only [List.all_cons, Bool.and_eq_true] at hk ⊢
      refine ⟨?_, ih hk.2 h.2⟩
      rw [← isWordChar_toLower a, h.1, isWordChar_toLower b]
      exact hk.1

/-- Case-insensitive prefix matching, decomposed. -/
theorem ciStarts_iff : ∀ (k s : List Char),
    ciStarts k s = true ↔
      ∃ w t, s = w ++ t ∧ w.map Char.toLower = k.map Char.toLower := by
  intro k
  induction k with
  | nil =>
    intro s
    constructor
    · intro _; exact ⟨[], s, rfl, rfl⟩
    · intro _; rfl
  | cons a as ih =>
    intro s
    cases s with
    | nil =>
      constructor
      · intro h; exact absurd h (by simp [ciStarts])
      · rintro ⟨w, t, hw, hmap⟩
        cases w with
        | nil => simp at hmap
        | cons c w' => simp at hw
    | cons b bs =>
      simp only [ciStarts, Bool.and_eq_true, beq_iff_eq]
      constructor
      · rintro ⟨hab, h⟩
        obtain ⟨w, t, rfl, hmap⟩ := (ih bs).mp h
        exact ⟨b :: w, t, rfl, by simp [hmap, hab.symm]⟩
      · rintro ⟨w, t, hw, hmap⟩
        cases w with
        | nil => simp at hmap
        | cons c w' =>
          simp only [List.cons_append, List.cons.injEq] at hw
          obtain ⟨rfl, rfl⟩ := hw
          simp only [List.map_cons, List.cons.injEq] at hmap
          exact ⟨hmap.1.symm, (ih (w' ++ t)).mpr ⟨w', t, rfl, hmap.2⟩⟩

/-- The head of a `dropWhile` residue fails the predicate. -/
theorem head_dropWhile_false (p : Char → Bool) :
    ∀ (l : List Char) (a : Char),
      (l.dropWhile p).head? = some a → p a = false := by
  intro l
  induction l with
  | nil => intro a h; simp at h
  | cons c rest ih =>
    intro a h
    rw [List.dropWhile_cons] at h
    split at h
    · exact ih a h
    · rename_i hc
      simp only [List.head?_cons, Option.some_inj] at h
      subst h
      simpa using hc

/-- Every element of a `takeWhile` prefix satisfies the predicate. -/
theorem all_takeWhile (p : Char → Bool) :
    ∀ l : List Char, (l.takeWhile p).all p = true := by
  intro l
  induction l with
  | nil => rfl
  | cons c rest ih =>
    rw [List.takeWhile_cons]
    split
    · rename_i hc
      simp [List.all_cons, hc, ih]
    · rfl

/-- `takeWhile` and `dropWhile` on a word run followed by a non-word
residue. -/
theorem takeWhile_word_append {w t : List Char}
    (hw : w.all isWordChar = true)
    (ht : ∀ a, t.head? = some a → isWordChar a = false) :
    (w ++ t).takeWhile isWordChar = w ∧
      (w ++ t).dropWhile isWordChar = t := by
  induction w with
  | nil =>
    simp only [List.nil_append]
    cases t with
    | nil => exact ⟨rfl, rfl⟩
    | cons a t' =>
      have := ht a rfl
      rw [List.takeWhile_cons, List.dropWhile_cons]
      simp [this]
  | cons c w ih =>
    simp only [List.all_cons, Bool.and_eq_true] at hw
    rw [List.cons_append, List.takeWhile_cons, List.dropWhile_cons]
    have h12 := ih hw.2
    simp [hw.1, h12.1, h12.2]

/-- The last element of an all-`p` list satisfies `p`. -/
theorem getLast?_all {p : Char → Bool} :
    ∀ {l : List Char} {a : Char},
      l.all p = true → l.getLast? = some a → p a = true := by
  intro l
  induction l with
  | nil => intro a _ h; simp at h
  | cons c rest ih =>
    intro a hall h
    simp only [List.all_cons, Bool.and_eq_true] at hall
    cases rest with
    | nil =>
      simp only [List.getLast?_singleton, Option.some_inj] at h
      subst h
      exact hall.1
    | cons d t =>
      rw [List.getLast?_cons_cons] at h
      exact ih hall.2 h

/-- A nonempty pattern never matches at the end of the text. -/
theorem matchHere_nil (prev : Option Char) (k0 : Char) (ks : List Char) :
    matchHere prev (k0 :: ks) [] = false := by
  simp [matchHere, ciStarts]

/-- Structural characterisation of a `\b k \b` match for patterns made of
word characters: the context is non-word, a prefix of the text case-folds
to the pattern, and the residue starts with a non-word character (or
ends). -/
theorem matchHere_word_iff (prev : Option Char) (k0 : Char)
    (ks : List Char) (hkw : (k0 :: ks).all isWordChar = true)
    (s : List Char) :
    matchHere prev (k0 :: ks) s = true ↔
      isWordOpt prev = false ∧
      ∃ w t, s = w ++ t ∧
        w.map Char.toLower = (k0 :: ks).map Char.toLower ∧
        (∀ a, t.head? = some a → isWordChar a = false) := by
  unfold matchHere
  constructor
  · intro h
    simp only [Bool.and_eq_true] at h
    obtain ⟨⟨hci, hb⟩, ha⟩ := h
    obtain ⟨w, t, rfl, hmap⟩ := (ciStarts_iff _ _).mp hci
    have hlen : w.length = (k0 :: ks).length := by
      have := congrArg List.length hmap
      simpa using this
    have hww : w.all isWordChar = true := all_wordChar_of_lower_eq hkw hmap
    cases w with
    | nil => simp at hlen
    | cons c w' =>
      have hcw : isWordChar c = true := by
        simp only [List.all_cons, Bool.and_eq_true] at hww
        exact hww.1
      refine ⟨?_, c :: w', t, rfl, hmap, ?_⟩
      · simp only [List.cons_append, List.head?_cons, hcw] at hb
        cases hp : isWordOpt prev
        · rfl
        · rw [hp] at hb
          simp at hb
      · intro a hta
        have htake : ((c :: w') ++ t).take (k0 :: ks).length = c :: w' := by
          rw [← hlen]
          exact List.take_left _ _
        have hdrop : ((c :: w') ++ t).drop (k0 :: ks).length = t := by
          rw [← hlen]
          exact List.drop_left _ _
        rw [htake, hdrop] at ha
        cases hgl : (c :: w').getLast? with
        | none => rw [hgl] at ha; simp at ha
        | some g =>
          rw [hgl] at ha
          dsimp only at ha
          have hg : isWordChar g = true := getLast?_all hww hgl
          rw [hg, hta] at ha
          simp only [isWordOpt] at ha
          cases hia : isWordChar a
          · rfl
          · rw [hia] at ha
            simp at ha
  · rintro ⟨hprev, w, t, hs, hmap, ht⟩
    subst hs
    have hlen : w.length = (k0 :: ks).length := by
      have := congrArg List.length hmap
      simpa using this
    have hww : w.all isWordChar = true := all_wordChar_of_lower_eq hkw hmap
    cases w with
    | nil => simp at hlen
    | cons c w' =>
      have hcw : isWordChar c = true := by
        simp only [List.all_cons, Bool.and_eq_true] at hww
        exact hww.1
      have hci : ciStarts (k0 :: ks) ((c :: w') ++ t) = true :=
        (ciStarts_iff _ _).mpr ⟨c :: w', t, rfl, hmap⟩
      have htake : ((c :: w') ++ t).take (k0 :: ks).length = c :: w' := by
        rw [← hlen]
        exact List.take_left _ _
      have hdrop : ((c :: w') ++ t).drop (k0 :: ks).length = t := by
        rw [← hlen]
        exact List.drop_left _ _
      simp only [Bool.and_eq_true]
      refine ⟨⟨hci, ?_⟩, ?_⟩
      · simp [List.head?_cons, hcw, hprev]
      · rw [htake, hdrop]
        cases hgl : (c :: w').getLast? with
        | none => simp at hgl
        | some g =>
          have hg : isWordChar g = true := getLast?_all hww hgl
          dsimp only
          rw [hg]
          cases t with
          | nil => simp [isWordOpt]
          | cons a t' =>
            have ha : isWordChar a = false := ht a rfl
            simp [isWordOpt, ha]

/-! ## The scanner as a map over word tokens -/

/-- Unfolding: `wordMap` on the empty text. -/
theorem wordMap_nil (f : List Char → List Char) : wordMap f [] = [] := by
  simp [wordMap]

/-- Unfolding: `wordMap` on a separator character. -/
theorem wordMap_cons_not (f : List Char → List Char) {c : Char}
    (rest : List Char) (h : isWordChar c = false) :
    wordMap f (c :: rest) = c :: wordMap f rest := by
  rw [wordMap]
  simp [h]

/-- Unfolding: `wordMap` on a word character opens the full word run. -/
theorem wordMap_cons_word (f : List Char → List Char) {c : Char}
    (rest : List Char) (h : isWordChar c = true) :
    wordMap f (c :: rest) =
      f (c :: rest.takeWhile isWordChar) ++
        wordMap f (rest.dropWhile isWordChar) := by
  rw [wordMap]
  simp [h]

/-- A `wordish` list is all word characters. -/
theorem wordish_all {w : List Char} (h : wordish w = true) :
    w.all isWordChar = true := by
  unfold wordish at h
  simp only [Bool.and_eq_true] at h
  exact h.2

/-- `wordMap` on a word run followed by a non-word residue. -/
theorem wordMap_word_append (f : List Char → List Char) {w t : List Char}
    (hw : wordish w = true)
    (ht : ∀ a, t.head? = some a → isWordChar a = false) :
    wordMap f (w ++ t) = f w ++ wordMap f t := by
  cases w with
  | nil => simp [wordish] at hw
  | cons c w' =>
    have hall : (c :: w').all isWordChar = true := wordish_all hw
    simp only [List.all_cons, Bool.and_eq_true] at hall
    rw [List.cons_append, wordMap_cons_word f _ hall.1]
    have h2 := @takeWhile_word_append w' t hall.2 ht
    rw [h2.1, h2.2]

/-- The head of a `wordMap` image of a non-word-headed text is non-word. -/
theorem wordMap_head_not (f : List Char → List Char) {t : List Char}
    (ht : ∀ a, t.head? = some a → isWordChar a = false) :
    ∀ a, (wordMap f t).head? = some a → isWordChar a = false := by
  cases t with
  | nil => intro a h; rw [wordMap_nil] at h; simp at h
  | cons c rest =>
    have hc : isWordChar c = false := ht c rfl
    rw [wordMap_cons_not f rest hc]
    intro a h
    simp only [List.head?_cons, Option.some_inj] at h
    subst h
    exact hc

/-- Main scanner lemma: on word-character patterns, one run of the
`re.sub` scanner is exactly the per-word-token substitution `tokSub`
applied to every word run of the text (when the scanner starts inside a
word, the remainder of that word is left untouched first). -/
theorem reSubF_eq_wordMap (k0 : Char) (ks r : List Char)
    (hkw : (k0 :: ks).all isWordChar = true) :
    ∀ (fuel : Nat) (s : List Char) (prev : Option Char), s.length ≤ fuel →
      reSubF k0 ks r fuel prev s =
        (if isWordOpt prev = true then
          s.takeWhile isWordChar ++
            wordMap (tokSub (k0 :: ks) r) (s.dropWhile isWordChar)
        else wordMap (tokSub (k0 :: ks) r) s) := by
  intro fuel
  induction fuel with
  | zero =>
    intro s prev hs
    have hnil : s = [] := List.length_eq_zero.mp (Nat.le_zero.mp hs)
    subst hnil
    simp [reSubF, wordMap_nil]
  | succ fuel ih =>
    intro s prev hs
    cases s with
    | nil => simp [reSubF, wordMap_nil]
    | cons c rest =>
      rw [reSubF]
      cases hm : matchHere prev (k0 :: ks) (c :: rest) with
      | true =>
        simp only [if_true]
        obtain ⟨hprev, w, t, hst, hmap, ht⟩ :=
          (matchHere_word_iff prev k0 ks hkw (c :: rest)).mp hm
        have hlen : w.length = (k0 :: ks).length := by
          have := congrArg List.length hmap
          simpa using this
        have hww : w.all isWordChar = true := all_wordChar_of_lower_eq hkw hmap
        have hwish : wordish w = true := by
          cases w with
          | nil => simp at hlen
          | cons x xs => simp [wordish, hww]
        have htake : (c :: rest).take (k0 :: ks).length = w := by
          rw [hst, ← hlen]
          exact List.take_left _ _
        have hdrop : (c :: rest).drop (k0 :: ks).length = t := by
          rw [hst, ← hlen]
          exact List.drop_left _ _
        rw [htake, hdrop]
        have hlt : t.length ≤ fuel := by
          have h1 : rest.length + 1 = w.length + t.length := by
            have := congrArg List.length hst
            simpa using this
          have h2 : 1 ≤ w.length := by
            cases w with
            | nil => simp at hlen
            | cons x xs => simp
          simp only [List.length_cons] at hs
          omega
        obtain ⟨g, hgl⟩ : ∃ g, w.getLast? = some g := by
          cases w with
          | nil => simp at hlen
          | cons x xs => exact ⟨_, List.getLast?_eq_getLast _ (by simp)⟩
        have hg : isWordChar g = true := getLast?_all hww hgl
        rw [hgl, ih t (some g) hlt]
        have hpg : isWordOpt (some g) = true := hg
        rw [if_pos hpg]
        have h0 := @takeWhile_word_append [] t rfl ht
        simp only [List.nil_append] at h0
        rw [h0.1, h0.2]
        rw [if_neg (by simp [hprev])]
        rw [hst, wordMap_word_append _ hwish ht]
        have hfr : tokSub (k0 :: ks) r w = r := by
          simp [tokSub, ciEqL, hmap]
        rw [hfr]
        simp
      | false =>
        simp only [Bool.false_eq_true, if_false]
        have hrl : rest.length ≤ fuel := by
          simp only [List.length_cons] at hs
          omega
        cases hc : isWordChar c with
        | true =>
          cases hp : isWordOpt prev with
          | true =>
            rw [ih rest (some c) hrl, if_pos (by simp [isWordOpt, hc])]
            simp [List.takeWhile_cons, List.dropWhile_cons, hc]
          | false =>
            have hciq : ciEqL (c :: rest.takeWhile isWordChar) (k0 :: ks) = false := by
              cases hq : ciEqL (c :: rest.takeWhile isWordChar) (k0 :: ks) with
              | false => rfl
              | true =>
                exfalso
                have hmapq : (c :: rest.takeWhile isWordChar).map Char.toLower =
                    (k0 :: ks).map Char.toLower := by
                  simpa [ciEqL] using hq
                have hmt : matchHere prev (k0 :: ks) (c :: rest) = true := by
                  refine (matchHere_word_iff prev k0 ks hkw (c :: rest)).mpr
                    ⟨hp, c :: rest.takeWhile isWordChar,
                      rest.dropWhile isWordChar, ?_, hmapq, ?_⟩
                  · rw [List.cons_append, List.takeWhile_append_dropWhile]
                  · exact fun a ha => head_dropWhile_false _ _ a ha
                rw [hmt] at hm
                exact absurd hm (by simp)
            rw [ih rest (some c) hrl, if_pos (by simp [isWordOpt, hc])]
            rw [if_neg (by simp [hp])]
            rw [wordMap_cons_word _ _ hc]
            have hfr : tokSub (k0 :: ks) r (c :: rest.takeWhile isWordChar) =
                c :: rest.takeWhile isWordChar := by
              simp [tokSub, hciq]
            rw [hfr]
            simp
        | false =>
          rw [ih rest (some c) hrl, if_neg (by simp [isWordOpt, hc])]
          cases hp : isWordOpt prev with
          | true =>
            simp [List.takeWhile_cons, List.dropWhile_cons, hc,
              wordMap_cons_not _ _ hc]
          | false =>
            rw [if_neg (by simp)]
            rw [wordMap_cons_not _ _ hc]

/-- A word token produced by `wordMap` is wordish. -/
theorem token_wordish {c : Char} (rest : List Char)
    (hc : isWordChar c = true) :
    wordish (c :: rest.takeWhile isWordChar) = true := by
  simp [wordish, List.all_cons, hc, all_takeWhile]

/-- `wordMap` of the identity is the identity. -/
theorem wordMap_id : ∀ s : List Char, wordMap (fun w => w) s = s
  | [] => wordMap_nil _
  | c :: rest => by
    cases hc : isWordChar c with
    | true =>
      rw [wordMap_cons_word _ _ hc, wordMap_id (rest.dropWhile isWordChar)]
      simp [List.takeWhile_append_dropWhile]
    | false =>
      rw [wordMap_cons_not _ _ hc, wordMap_id rest]
termination_by s => s.length
decreasing_by
all_goals
  simp only [List.length_cons]
  have hle : (List.dropWhile isWordChar rest).length ≤ rest.length :=
    List.Sublist.length_le (List.dropWhile_sublist _)
  omega

/-- `wordMap` only looks at the per-token function on wordish tokens. -/
theorem wordMap_congr (f g : List Char → List Char)
    (h : ∀ w, wordish w = true → f w = g w) :
    ∀ s : List Char, wordMap f s = wordMap g s
  | [] => by simp [wordMap_nil]
  | c :: rest => by
    cases hc : isWordChar c with
    | true =>
      rw [wordMap_cons_word f _ hc, wordMap_cons_word g _ hc,
        h _ (token_wordish rest hc),
        wordMap_congr f g h (rest.dropWhile isWordChar)]
    | false =>
      rw [wordMap_cons_not f _ hc, wordMap_cons_not g _ hc,
        wordMap_congr f g h rest]
termination_by s => s.length
decreasing_by
all_goals
  simp only [List.length_cons]
  have hle : (List.dropWhile isWordChar rest).length ≤ rest.length :=
    List.Sublist.length_le (List.dropWhile_sublist _)
  omega

/-- Two stacked `wordMap`s compose tokenwise, provided the inner
function sends words to words. -/
theorem wordMap_comp (f g : List Char → List Char)
    (hf : ∀ w, wordish w = true → wordish (f w) = true) :
    ∀ s : List Char,
      wordMap g (wordMap f s) = wordMap (fun w => g (f w)) s
  | [] => by simp [wordMap_nil]
  | c :: rest => by
    cases hc : isWordChar c with
    | true =>
      rw [wordMap_cons_word f _ hc, wordMap_cons_word _ _ hc]
      have hw := token_wordish rest hc
      have hX : ∀ a, (wordMap f (rest.dropWhile isWordChar)).head? = some a →
          isWordChar a = false :=
        wordMap_head_not f (fun a ha => head_dropWhile_false _ _ a ha)
      rw [wordMap_word_append g (hf _ hw) hX,
        wordMap_comp f g hf (rest.dropWhile isWordChar)]
    | false =>
      rw [wordMap_cons_not f _ hc, wordMap_cons_not g _ hc,
        wordMap_cons_not _ _ hc, wordMap_comp f g hf rest]
termination_by s => s.length
decreasing_by
all_goals
  simp only [List.length_cons]
  have hle : (List.dropWhile isWordChar rest).length ≤ rest.length :=
    List.Sublist.length_le (List.dropWhile_sublist _)
  omega

/-- One full `re.sub` on a single-word pattern is the per-token
substitution over the whole text. -/
theorem reSubW_eq_wordMap (k r : List Char) (hk : wordish k = true)
    (s : List Char) : reSubW k r s = wordMap (tokSub k r) s := by
  cases k with
  | nil => simp [wordish] at hk
  | cons k0 ks =>
    simp only [reSubW]
    rw [reSubF_eq_wordMap k0 ks r (wordish_all hk) s.length s none le_rfl]
    rw [if_neg (by simp [isWordOpt])]

/-! ## Association-list facts for the correction table -/

/-- A successful `List.lookup` witnesses membership. -/
theorem lookup_mem {α β : Type} [BEq α] [LawfulBEq α] :
    ∀ {l : List (α × β)} {a : α} {b : β},
      List.lookup a l = some b → (a, b) ∈ l := by
  intro l
  induction l with
  | nil => intro a b h; simp [List.lookup] at h
  | cons kv rest ih =>
    intro a b h
    obtain ⟨k1, e1⟩ := kv
    rw [List.lookup_cons] at h
    split at h
    · rename_i hbeq
      have hak : a = k1 := eq_of_beq hbeq
      subst hak
      simp only [Option.some_inj] at h
      subst h
      exact List.mem_cons_self _ _
    · exact List.mem_cons_of_mem _ (ih h)

/-- A key of the table can always be looked up. -/
theorem lookup_isSome_of_mem_fst {l : List (String × String)} {a : String}
    (h : a ∈ l.map Prod.fst) : ∃ c, List.lookup a l = some c := by
  induction l with
  | nil => simp at h
  | cons kv rest ih =>
    obtain ⟨k1, c1⟩ := kv
    simp only [List.map_cons, List.mem_cons] at h
    cases hbeq : (a == k1) with
    | true => exact ⟨c1, by rw [List.lookup_cons, hbeq]⟩
    | false =>
      rcases h with h | h
      · subst h
        simp at hbeq
      · obtain ⟨c, hc⟩ := ih h
        refine ⟨c, ?_⟩
        rw [List.lookup_cons, hbeq]
        exact hc

/-- Unpacking `singleWordTable` at one entry. -/
theorem singleWordTable_spec {cmap : List (String × String)}
    (hG : singleWordTable cmap = true) {k c : String}
    (hm : (k, c) ∈ cmap) :
    wordish k.data = true ∧ wordish c.data = true ∧
      k.data.map Char.toLower = k.data ∧
      List.lookup (strLower c) cmap = some c := by
  unfold singleWordTable at hG
  have h := List.all_eq_true.mp hG (k, c) hm
  simp only [Bool.and_eq_true, beq_iff_eq] at h
  exact ⟨h.1.1.1, h.1.1.2, h.1.2, h.2⟩

/-- One step of the per-token key fold, unfolded. -/
theorem applyTok_cons (cmap : List (String × String)) (k : String)
    (keys : List String) (w : List Char) :
    applyTok cmap (k :: keys) w =
      applyTok cmap keys
        (if ciEqL w k.data then
          (match List.lookup k cmap with
           | some c => c.data
           | none => w)
        else w) := rfl

/-- A canonical term that is a self-mapped key is fixed by the whole
per-token fold. -/
theorem applyTok_fixes {cmap : List (String × String)}
    (hG : singleWordTable cmap = true) :
    ∀ (keys : List String), (∀ k2 ∈ keys, k2 ∈ cmap.map Prod.fst) →
      ∀ c : String, List.lookup (strLower c) cmap = some c →
        applyTok cmap keys c.data = c.data := by
  intro keys
  induction keys with
  | nil => intro _ c _; rfl
  | cons k keys ih =>
    intro hkeys c hc
    have hkmem := hkeys k (List.mem_cons_self _ _)
    obtain ⟨ck, hck⟩ := lookup_isSome_of_mem_fst hkmem
    obtain ⟨hkw, hckw, hkl, hckl⟩ := singleWordTable_spec hG (lookup_mem hck)
    rw [applyTok_cons]
    cases hciq : ciEqL c.data k.data with
    | false =>
      rw [if_neg (by simp [hciq])]
      exact ih (fun a ha => hkeys a (List.mem_cons_of_mem _ ha)) c hc
    | true =>
      have hmap : c.data.map Char.toLower = k.data.map Char.toLower := by
        simpa [ciEqL] using hciq
      have hkey : k = strLower c := by
        apply String.ext
        show k.data = (strLower c).data
        have : (strLower c).data = c.data.map Char.toLower := rfl
        rw [this, hmap, hkl]
      subst hkey
      rw [if_pos rfl, hc]
      exact ih (fun a ha => hkeys a (List.mem_cons_of_mem _ ha)) c hc

/-- The per-token fold either leaves a token unchanged or lands on a
self-mapped canonical term. -/
theorem applyTok_cases {cmap : List (String × String)}
    (hG : singleWordTable cmap = true) :
    ∀ (keys : List String), (∀ k2 ∈ keys, k2 ∈ cmap.map Prod.fst) →
      ∀ w : List Char,
        applyTok cmap keys w = w ∨
        ∃ c : String, List.lookup (strLower c) cmap = some c ∧
          applyTok cmap keys w = c.data := by
  intro keys
  induction keys with
  | nil => intro _ w; exact Or.inl rfl
  | cons k keys ih =>
    intro hkeys w
    have hsub : ∀ k2 ∈ keys, k2 ∈ cmap.map Prod.fst :=
      fun a ha => hkeys a (List.mem_cons_of_mem _ ha)
    have hkmem := hkeys k (List.mem_cons_self _ _)
    obtain ⟨ck, hck⟩ := lookup_isSome_of_mem_fst hkmem
    obtain ⟨hkw, hckw, hkl, hckl⟩ := singleWordTable_spec hG (lookup_mem hck)
    rw [applyTok_cons]
    cases hciq : ciEqL w k.data with
    | false =>
      rw [if_neg (by simp [hciq])]
      exact ih hsub w
    | true =>
      rw [if_pos rfl, hck]
      exact Or.inr ⟨ck, hckl, applyTok_fixes hG keys hsub ck hckl⟩

/-- The whole key fold of `correct_query`, at the character level, is a
single `wordMap` of the per-token fold. -/
theorem fold_pass_data {cmap : List (String × String)}
    (hG : singleWordTable cmap = true) :
    ∀ (keys : List String), (∀ k ∈ keys, k ∈ cmap.map Prod.fst) →
      ∀ q : String,
        (keys.foldl (fun acc k =>
          match List.lookup k cmap with
          | some c => String.mk (reSubW k.data c.data acc.data)
          | none => acc) q).data = wordMap (applyTok cmap keys) q.data := by
  intro keys
  induction keys with
  | nil =>
    intro _ q
    rw [List.foldl_nil, wordMap_congr (applyTok cmap []) (fun w => w)
      (fun w _ => rfl), wordMap_id]
  | cons k keys ih =>
    intro hkeys q
    have hsub : ∀ k2 ∈ keys, k2 ∈ cmap.map Prod.fst :=
      fun a ha => hkeys a (List.mem_cons_of_mem _ ha)
    have hkmem : k ∈ cmap.map Prod.fst := hkeys k (List.mem_cons_self _ _)
    obtain ⟨c, hc⟩ := lookup_isSome_of_mem_fst hkmem
    obtain ⟨hkw, hcw, hkl, hcl⟩ := singleWordTable_spec hG (lookup_mem hc)
    rw [List.foldl_cons]
    have hstep :
        (match List.lookup k cmap with
         | some c => String.mk (reSubW k.data c.data q.data)
         | none => q) = String.mk (reSubW k.data c.data q.data) := by
      rw [hc]
    rw [hstep, ih hsub]
    have hdata : (String.mk (reSubW k.data c.data q.data)).data =
        reSubW k.data c.data q.data := rfl
    rw [hdata, reSubW_eq_wordMap k.data c.data hkw,
      wordMap_comp (tokSub k.data c.data) (applyTok cmap keys)
        (fun w hw => by
          unfold tokSub
          split
          · exact hcw
          · exact hw)]
    apply wordMap_congr
    intro w _
    rw [applyTok_cons, hc]
    rfl

/-- Stable longest-first insertion permutes. -/
theorem insertLen_perm (a : String) :
    ∀ l : List String, (insertLen a l).Perm (a :: l)
  | [] => List.Perm.refl _
  | b :: rest => by
    unfold insertLen
    split
    · exact List.Perm.refl _
    · exact (List.Perm.cons b (insertLen_perm a rest)).trans
        (List.Perm.swap a b rest)

/-- The longest-first sort permutes its input. -/
theorem sortLenDesc_perm : ∀ l : List String, (sortLenDesc l).Perm l
  | [] => List.Perm.refl _
  | a :: rest =>
    (insertLen_perm a (sortLenDesc rest)).trans
      (List.Perm.cons a (sortLenDesc_perm rest))

/-- Stable longest-first insertion preserves the descending order. -/
theorem insertLen_pairwise (a : String) :
    ∀ {l : List String},
      l.Pairwise (fun x y => y.data.length ≤ x.data.length) →
      (insertLen a l).Pairwise (fun x y => y.data.length ≤ x.data.length) := by
  intro l
  induction l with
  | nil => intro _; exact List.pairwise_singleton _ _
  | cons b rest ih =>
    intro hp
    rcases List.pairwise_cons.mp hp with ⟨hbrest, hrest⟩
    unfold insertLen
    split
    · rename_i hba
      refine List.pairwise_cons.mpr ⟨?_, hp⟩
      intro x hx
      rcases List.mem_cons.mp hx with rfl | hxr
      · exact hba
      · exact le_trans (hbrest x hxr) hba
    · rename_i hba
      refine List.pairwise_cons.mpr ⟨?_, ih hrest⟩
      intro x hx
      have hx2 := (insertLen_perm a rest).mem_iff.mp hx
      rcases List.mem_cons.mp hx2 with rfl | hxr
      · omega
      · exact hbrest x hxr

/-- The longest-first sort is descending by length. -/
theorem sortLenDesc_pairwise : ∀ l : List String,
    (sortLenDesc l).Pairwise (fun x y => y.data.length ≤ x.data.length)
  | [] => List.Pairwise.nil
  | a :: rest => insertLen_pairwise a (sortLenDesc_pairwise rest)

/-- `correct_query` past its guards is the key fold. -/
theorem correct_query_eq_pass (cmap : List (String × String)) (q : String)
    (hq : (q.data.isEmpty || cmap.isEmpty) = false) :
    correct_query cmap q = (sorted_terms cmap).foldl (fun acc k =>
      match List.lookup k cmap with
      | some c => String.mk (reSubW k.data c.data acc.data)
      | none => acc) q := by
  unfold correct_query
  rw [hq]
  simp

/-- `correct_query` is the identity when a guard fires. -/
theorem correct_query_guard (cmap : List (String × String)) (q : String)
    (h : (q.data.isEmpty || cmap.isEmpty) = true) :
    correct_query cmap q = q := by
  unfold correct_query
  rw [h]
  simp

/-- The scanner context at offset 0 is the starting context. -/
theorem scanCtx_zero (s : List Char) (prev : Option Char) :
    scanCtx s prev 0 = prev := rfl

/-- The scanner context started with no left context is `prevAt`. -/
theorem scanCtx_none (s : List Char) : ∀ i, scanCtx s none i = prevAt s i := by
  intro i
  cases i with
  | zero => rfl
  | succ j => rfl

/-- Context shift by one consumed character. -/
theorem scanCtx_shift (c : Char) (rest : List Char) (prev : Option Char) :
    ∀ i, rest.drop i = [] ∨
      scanCtx (c :: rest) prev (i + 1) = scanCtx rest (some c) i := by
  intro i
  cases i with
  | zero => exact Or.inr (by simp [scanCtx])
  | succ j =>
    cases rest with
    | nil => exact Or.inl (by simp)
    | cons d t =>
      right
      unfold scanCtx
      rw [if_neg (by omega), if_neg (by omega), List.take_succ_cons,
        List.take_succ_cons, List.getLast?_cons_cons]

/-- A match test one position deeper, re-expressed over the tail. -/
theorem matchHere_shift (c : Char) (rest : List Char) (prev : Option Char)
    (k0 : Char) (ks : List Char) (i : Nat) :
    matchHere (scanCtx rest (some c) i) (k0 :: ks) (rest.drop i) =
      matchHere (scanCtx (c :: rest) prev (i + 1)) (k0 :: ks)
        ((c :: rest).drop (i + 1)) := by
  have hdrop : (c :: rest).drop (i + 1) = rest.drop i := rfl
  rcases scanCtx_shift c rest prev i with hnil | hctx
  · rw [hdrop, hnil, matchHere_nil, matchHere_nil]
  · rw [hdrop, hctx]

/-- If the pattern matches nowhere (with the scanner contexts), the
scanner leaves the text unchanged. -/
theorem reSubF_no_match (k0 : Char) (ks r : List Char) :
    ∀ (fuel : Nat) (s : List Char) (prev : Option Char), s.length ≤ fuel →
      (∀ i, matchHere (scanCtx s prev i) (k0 :: ks) (s.drop i) = false) →
      reSubF k0 ks r fuel prev s = s := by
  intro fuel
  induction fuel with
  | zero =>
    intro s prev hs _
    have hnil : s = [] := List.length_eq_zero.mp (Nat.le_zero.mp hs)
    subst hnil
    rfl
  | succ fuel ih =>
    intro s prev hs H
    cases s with
    | nil => rfl
    | cons c rest =>
      have h0 : matchHere prev (k0 :: ks) (c :: rest) = false := by
        simpa [scanCtx] using H 0
      simp only [reSubF]
      rw [h0]
      simp only [Bool.false_eq_true, if_false]
      have hrl : rest.length ≤ fuel := by
        simp only [List.length_cons] at hs
        omega
      rw [ih rest (some c) hrl (fun i => by
        rw [matchHere_shift c rest prev k0 ks i]
        exact H (i + 1))]

/-- A pattern with no whole-word occurrence is never substituted:
`re.sub` is the identity. A variant occurring only inside a larger word
has no match, so it is never replaced. -/
theorem reSubW_no_occurrence (k r s : List Char)
    (h : hasWholeWord k s = false) : reSubW k r s = s := by
  cases k with
  | nil => rfl
  | cons k0 ks =>
    simp only [reSubW]
    apply reSubF_no_match k0 ks r s.length s none le_rfl
    intro i
    rw [scanCtx_none]
    by_cases hi : i ≤ s.length
    · have hmem : i ∈ List.range (s.length + 1) :=
        List.mem_range.mpr (by omega)
      unfold hasWholeWord at h
      have hall := List.any_eq_false.mp h
      have hx := hall i hmem
      simpa [matchAtPos] using hx
    · have hdrop : s.drop i = [] := List.drop_eq_nil_of_le (by omega)
      rw [hdrop]
      exact matchHere_nil _ _ _

/-- If no variant key of the table has a whole-word occurrence in the
query, `correct_query` leaves it unchanged. -/
theorem correct_query_no_occurrence (cmap : List (String × String))
    (q : String)
    (h : ∀ k ∈ cmap.map Prod.fst, hasWholeWord k.data q.data = false) :
    correct_query cmap q = q := by
  cases hg : (q.data.isEmpty || cmap.isEmpty) with
  | true => exact correct_query_guard cmap q hg
  | false =>
    rw [correct_query_eq_pass cmap q hg]
    have hkeys : ∀ k ∈ sorted_terms cmap,
        hasWholeWord k.data q.data = false := by
      intro k hk
      exact h k ((sortLenDesc_perm _).mem_iff.mp hk)
    revert hkeys
    generalize sorted_terms cmap = keys
    intro hkeys
    induction keys with
    | nil => rfl
    | cons k keys ih =>
      rw [List.foldl_cons]
      have hstep : (match List.lookup k cmap with
          | some c => String.mk (reSubW k.data c.data q.data)
          | none => q) = q := by
        cases hc : List.lookup k cmap with
        | none => rfl
        | some c =>
          show String.mk (reSubW k.data c.data q.data) = q
          rw [reSubW_no_occurrence k.data c.data q.data
            (hkeys k (List.mem_cons_self _ _))]
      rw [hstep]
      exact ih (fun a ha => hkeys a (List.mem_cons_of_mem _ ha))

/-- The scanner splices the replacement over the leftmost match and
continues after the matched slice. -/
theorem reSubF_leftmost (k0 : Char) (ks r : List Char) :
    ∀ (fuel : Nat) (s : List Char) (prev : Option Char) (i : Nat),
      s.length ≤ fuel →
      matchHere (scanCtx s prev i) (k0 :: ks) (s.drop i) = true →
      (∀ j, j < i →
        matchHere (scanCtx s prev j) (k0 :: ks) (s.drop j) = false) →
      reSubF k0 ks r fuel prev s =
        s.take i ++ r ++
          reSubF k0 ks r (fuel - i - 1)
            ((s.drop i).take (k0 :: ks).length).getLast?
            ((s.drop i).drop (k0 :: ks).length) := by
  intro fuel
  induction fuel with
  | zero =>
    intro s prev i hs hm _
    have hnil : s = [] := List.length_eq_zero.mp (Nat.le_zero.mp hs)
    subst hnil
    rw [List.drop_nil] at hm
    exact absurd hm (by rw [matchHere_nil]; simp)
  | succ fuel ih =>
    intro s prev i hs hm hfirst
    cases s with
    | nil =>
      rw [List.drop_nil] at hm
      exact absurd hm (by rw [matchHere_nil]; simp)
    | cons c rest =>
      have hrl : rest.length ≤ fuel := by
        simp only [List.length_cons] at hs
        omega
      cases i with
      | zero =>
        have hm0 : matchHere prev (k0 :: ks) (c :: rest) = true := by
          simpa [scanCtx] using hm
        simp only [reSubF]
        rw [hm0]
        simp
      | succ i' =>
        have h0 : matchHere prev (k0 :: ks) (c :: rest) = false := by
          simpa [scanCtx] using hfirst 0 (Nat.succ_pos _)
        simp only [reSubF]
        rw [h0]
        simp only [Bool.false_eq_true, if_false]
        have hm2 : matchHere (scanCtx rest (some c) i') (k0 :: ks)
            (rest.drop i') = true := by
          rw [matchHere_shift c rest prev k0 ks i']
          exact hm
        have hfirst2 : ∀ j, j < i' →
            matchHere (scanCtx rest (some c) j) (k0 :: ks)
              (rest.drop j) = false := by
          intro j hj
          rw [matchHere_shift c rest prev k0 ks j]
          exact hfirst (j + 1) (by omega)
        rw [ih rest (some c) i' hrl hm2 hfirst2]
        have harith : fuel + 1 - (i' + 1) - 1 = fuel - i' - 1 := by omega
        rw [List.take_succ_cons, harith]
        simp [List.cons_append]

/-! ## C7 — idempotence of vocabulary correction -/

/-- C7 counterexample: with a table in which every canonical term maps to
itself (the premise the claim cites — `canonicalsSelfMap`), correction is
NOT idempotent: the canonical term `Tracs Sure` contains its own variant
key `tracs` as a whole word, so a second pass rewrites the first output
again, producing `Tracs Sure Sure`. -/
theorem c7_idempotence_counterexample :
    canonicalsSelfMap vocabT0 = true ∧
    correct_query vocabT0 "tracs" = "Tracs Sure" ∧
    correct_query vocabT0 (correct_query vocabT0 "tracs") ≠
      correct_query vocabT0 "tracs" :=
  ⟨by decide, by decide, by decide⟩

/-- C7 amended: vocabulary correction is idempotent for every query
whenever the correction table consists of single-word lowercase variant
keys and single-word canonical terms with every canonical term a
self-mapped key — canonical self-mapping alone does not suffice (see the
counterexample), but restricted to single-word tables the second pass
reproduces the first. -/
theorem c7_vocab_idempotence_amended (cmap : List (String × String))
    (hG : singleWordTable cmap = true) (q : String) :
    correct_query cmap (correct_query cmap q) = correct_query cmap q := by
  cases hg : (q.data.isEmpty || cmap.isEmpty) with
  | true =>
    have h1 : correct_query cmap q = q := correct_query_guard cmap q hg
    rw [h1]
    exact h1
  | false =>
    have hkeys : ∀ k ∈ sorted_terms cmap, k ∈ cmap.map Prod.fst := by
      intro k hk
      exact (sortLenDesc_perm (cmap.map Prod.fst)).mem_iff.mp hk
    have hpass1 := correct_query_eq_pass cmap q hg
    have hpres : ∀ w, wordish w = true →
        wordish (applyTok cmap (sorted_terms cmap) w) = true := by
      intro w hw
      rcases applyTok_cases hG _ hkeys w with h | ⟨c, hcl, h⟩
      · rw [h]; exact hw
      · rw [h]
        exact (singleWordTable_spec hG (lookup_mem hcl)).2.1
    have hidem : ∀ w,
        applyTok cmap (sorted_terms cmap)
          (applyTok cmap (sorted_terms cmap) w) =
        applyTok cmap (sorted_terms cmap) w := by
      intro w
      rcases applyTok_cases hG _ hkeys w with h | ⟨c, hcl, h⟩
      · rw [h, h]
      · rw [h]
        exact applyTok_fixes hG _ hkeys c hcl
    cases hg2 : ((correct_query cmap q).data.isEmpty || cmap.isEmpty) with
    | true => exact correct_query_guard cmap _ hg2
    | false =>
      apply String.ext
      rw [correct_query_eq_pass cmap (correct_query cmap q) hg2]
      rw [fold_pass_data hG _ hkeys (correct_query cmap q)]
      rw [hpass1]
      rw [fold_pass_data hG _ hkeys q]
      rw [wordMap_comp _ _ hpres q.data]
      exact wordMap_congr _ _ (fun w _ => hidem w) q.data

/-- C7 witness: a single-word misspelling table, on a concrete query,
gives the same result after a second correction pass. -/
theorem c7_vocab_idempotence_amended_witness :
    singleWordTable vocabT1 = true ∧
    correct_query vocabT1 (correct_query vocabT1
      "What is Dormolin and zetal used for?") =
    correct_query vocabT1 "What is Dormolin and zetal used for?" :=
  ⟨by decide, c7_vocab_idempotence_amended vocabT1 (by decide) _⟩

/-! ## C8 — the substitution algorithm of `correct_query` -/

/-- C8: the corrector iterates over exactly the variant keys, stably
sorted by length longest first (the iteration list is a permutation of
the table keys and pairwise descending by length); each step replaces
whole-word, case-insensitive, boundary-delimited occurrences: a single
substitution with no whole-word occurrence is the identity (in
particular, a variant occurring only inside a larger word is never
replaced, and a query in which no variant occurs as a whole word passes
through `correct_query` unchanged); and a substitution with a leftmost
whole-word match at position `i` splices the canonical form over the
matched slice and continues scanning after it. -/
theorem c8_correct_query_algorithm :
    (∀ cmap : List (String × String),
      (sorted_terms cmap).Perm (cmap.map Prod.fst) ∧
      (sorted_terms cmap).Pairwise
        (fun a b => b.data.length ≤ a.data.length)) ∧
    (∀ k r s : List Char, hasWholeWord k s = false → reSubW k r s = s) ∧
    (∀ (cmap : List (String × String)) (q : String),
      (∀ k ∈ cmap.map Prod.fst, hasWholeWord k.data q.data = false) →
      correct_query cmap q = q) ∧
    (∀ (k0 : Char) (ks r s : List Char) (i : Nat),
      matchAtPos (k0 :: ks) s i = true →
      (∀ j, j < i → matchAtPos (k0 :: ks) s j = false) →
      reSubW (k0 :: ks) r s =
        s.take i ++ r ++
          reSubF k0 ks r (s.length - i - 1)
            ((s.drop i).take (k0 :: ks).length).getLast?
            ((s.drop i).drop (k0 :: ks).length)) := by
  refine ⟨fun cmap => ⟨sortLenDesc_perm _, sortLenDesc_pairwise _⟩,
    reSubW_no_occurrence, correct_query_no_occurrence,
    fun k0 ks r s i hm hfirst => ?_⟩
  simp only [reSubW]
  apply reSubF_leftmost k0 ks r s.length s none i le_rfl
  · rw [scanCtx_none]
    exact hm
  · intro j hj
    rw [scanCtx_none]
    exact hfirst j hj

/-- C8 witness: the variant `trail` inside the larger word `trailer` is
not replaced; a whole-word occurrence (`akre`, case-insensitively
matching `Akre`) is spliced at its leftmost position. -/
theorem c8_correct_query_algorithm_witness :
    reSubW "trail".data "Trail".data "trailer x".data = "trailer x".data ∧
    correct_query vocabT1 "dormuline zeta" = "dormuline zeta" ∧
    reSubW "akre".data "Akre Shield".data "my AKRE now".data =
      ("my ".data.take 3 ++ "Akre Shield".data ++
        reSubF 'a' "kre".data "Akre Shield".data 7
          ((("my AKRE now".data.drop 3).take 4).getLast?)
          (("my AKRE now".data.drop 3).drop 4)) := by
  refine ⟨c8_correct_query_algorithm.2.1 _ _ _ (by decide),
    c8_correct_query_algorithm.2.2.1 vocabT1 _ (by decide), ?_⟩
  have h := c8_correct_query_algorithm.2.2.2 'a' "kre".data
    "Akre Shield".data "my AKRE now".data 3 (by decide) (by decide)
  simpa using h

end AgriRag

